import Mathlib

/-!
Verification development for the CanvasUI rectangle / damage-management core
(src/canvasui.js).  The JavaScript source is embedded shallowly: rectangles
become a Lean structure over `Int`, the mutating array loops become explicit
list-passing functions that reproduce the splice/unshift order of the source,
and the gadget tree becomes an inductive tree with an explicit context for the
parent chain.
-/

/-- A rectangle, mirroring CanvasUI.Rectangle: x, y, width, height. -/
structure Rect where
  x : Int
  y : Int
  width : Int
  height : Int
deriving DecidableEq, Repr

/-- CanvasUI.Rectangle.prototype.getX2: the inclusive right edge. -/
def Rect.getX2 (self : Rect) : Int := self.x + self.width - 1

/-- CanvasUI.Rectangle.prototype.getY2: the inclusive bottom edge. -/
def Rect.getY2 (self : Rect) : Int := self.y + self.height - 1

/-- CanvasUI.Rectangle.prototype.getIntersect. -/
def Rect.getIntersect (self rect : Rect) : Rect :=
  let x1 := if self.x > rect.x then self.x else rect.x
  let y1 := if self.y > rect.y then self.y else rect.y
  let x2 := if self.getX2 < rect.getX2 then self.getX2 else rect.getX2
  let y2 := if self.getY2 < rect.getY2 then self.getY2 else rect.getY2
  ⟨x1, y1, x2 - x1 + 1, y2 - y1 + 1⟩

/-- CanvasUI.Rectangle.prototype.hasDimensions. -/
def Rect.hasDimensions (self : Rect) : Bool :=
  if self.width < 1 then false
  else if self.height < 1 then false
  else true

/-- CanvasUI.Rectangle.prototype.intersects. -/
def Rect.intersects (self rect : Rect) : Bool :=
  decide (self.x + self.width > rect.x) &&
  decide (self.y + self.height > rect.y) &&
  decide (self.x < rect.x + rect.width) &&
  decide (self.y < rect.y + rect.height)

/-- CanvasUI.Rectangle.prototype.contains (point containment, half-open). -/
def Rect.containsPt (self : Rect) (x y : Int) : Bool :=
  decide (x ≥ self.x) && decide (y ≥ self.y) &&
  decide (x < self.x + self.width) && decide (y < self.y + self.height)

/-- Pixel-set semantics of a rectangle: the half-open integer box
[x, x+width) times [y, y+height). -/
def Rect.memPt (self : Rect) (p : Int × Int) : Prop :=
  self.x ≤ p.1 ∧ p.1 < self.x + self.width ∧
  self.y ≤ p.2 ∧ p.2 < self.y + self.height

instance (r : Rect) (p : Int × Int) : Decidable (r.memPt p) := by
  unfold Rect.memPt; infer_instance

/-- Boolean form of pixel membership. -/
def Rect.memPtB (self : Rect) (p : Int × Int) : Bool := decide (self.memPt p)

/-- One carve step of splitIntersection: the left strip.  The state is the
working intersection rectangle together with the remainder rectangles pushed
so far, in push order. -/
def Rect.carveLeft (self : Rect) (st : Rect × List Rect) : Rect × List Rect :=
  let i := st.1
  if i.x < self.x then
    (⟨self.x, i.y, i.width - (self.x - i.x), i.height⟩,
     st.2 ++ [⟨i.x, i.y, self.x - i.x, i.height⟩])
  else st

/-- One carve step of splitIntersection: the right strip. -/
def Rect.carveRight (self : Rect) (st : Rect × List Rect) : Rect × List Rect :=
  let i := st.1
  if i.x + i.width > self.x + self.width then
    (⟨i.x, i.y, self.x + self.width - i.x, i.height⟩,
     st.2 ++ [⟨self.x + self.width, i.y, i.width - (self.x + self.width - i.x), i.height⟩])
  else st

/-- One carve step of splitIntersection: the top strip. -/
def Rect.carveTop (self : Rect) (st : Rect × List Rect) : Rect × List Rect :=
  let i := st.1
  if i.y < self.y then
    (⟨i.x, self.y, i.width, i.height - (self.y - i.y)⟩,
     st.2 ++ [⟨i.x, i.y, i.width, self.y - i.y⟩])
  else st

/-- One carve step of splitIntersection: the bottom strip. -/
def Rect.carveBottom (self : Rect) (st : Rect × List Rect) : Rect × List Rect :=
  let i := st.1
  if i.y + i.height > self.y + self.height then
    (⟨i.x, i.y, i.width, self.y + self.height - i.y⟩,
     st.2 ++ [⟨i.x, self.y + self.height, i.width, i.height - (self.y + self.height - i.y)⟩])
  else st

/-- CanvasUI.Rectangle.prototype.splitIntersection.  Returns none when the
rectangles do not satisfy `intersects`; otherwise the final trimmed
intersection together with the remainder rectangles in the order they are
pushed by the source: left, right, top, bottom. -/
def Rect.splitIntersection (self rect : Rect) : Option (Rect × List Rect) :=
  if self.intersects rect then
    some (self.carveBottom (self.carveTop (self.carveRight (self.carveLeft (rect, [])))))
  else none

/-- Membership in the union of the pixel sets of a list of rectangles. -/
def memUnion (p : Int × Int) (l : List Rect) : Prop :=
  ∃ r ∈ l, r.memPt p

instance (p : Int × Int) (l : List Rect) : Decidable (memUnion p l) := by
  unfold memUnion; infer_instance

/-- Two rectangles are pixel-disjoint. -/
def pixDisj (a b : Rect) : Prop := ∀ p : Int × Int, ¬(a.memPt p ∧ b.memPt p)

/-- A list of rectangles is pairwise pixel-disjoint. -/
def PairwiseDisj (l : List Rect) : Prop := l.Pairwise pixDisj

/-- Total area of a list of rectangles, counted with multiplicity. -/
def areaSum (l : List Rect) : Int := (l.map (fun r => r.width * r.height)).sum

/-- The inner splice/unshift loop shared by addDamagedRect, drawRects and
getVisibleRects: each element of the work list is split against the base;
an element that intersects the base is removed and its remainder strips are
inserted at the front of the array (each unshift), so they are skipped for
the current base; elements already passed over sit in acc. -/
def removeOverlappedAux (base : Rect) (acc : List Rect) : List Rect → List Rect
  | [] => acc
  | d :: rest =>
    match base.splitIntersection d with
    | none => removeOverlappedAux base (acc ++ [d]) rest
    | some (_, rems) => removeOverlappedAux base (rems.reverse ++ acc) rest

/-- Result of running the inner loop over a whole work list. -/
def removeOverlapped (base : Rect) (l : List Rect) : List Rect :=
  removeOverlappedAux base [] l

/-- CanvasUI.DamagedRectManager.prototype.addDamagedRect.  The new rect is a
work queue of one; it is split against every existing damaged rect in order
(the outer loop), keeping only the parts not already damaged; whatever
survives is appended to the damaged rect array. -/
def addDamagedRect (damagedRects : List Rect) (rect : Rect) : List Rect :=
  damagedRects ++
    damagedRects.foldl (fun newRects d => removeOverlapped d newRects) [rect]

/-- CanvasUI.BorderSize. -/
structure BorderSize where
  top : Int
  right : Int
  bottom : Int
  left : Int
deriving DecidableEq, Repr

/-- A gadget tree node: the geometry and visibility state of
CanvasUI.Gadget that the redraw pipeline reads, together with the ordered
child list (index 0 is bottommost, the last index is topmost). -/
inductive Gadget where
  | node (rect : Rect) (visible : Bool) (border : BorderSize)
      (children : List Gadget)

def Gadget.rect : Gadget → Rect
  | .node r _ _ _ => r

def Gadget.visible : Gadget → Bool
  | .node _ v _ _ => v

def Gadget.border : Gadget → BorderSize
  | .node _ _ b _ => b

def Gadget.children : Gadget → List Gadget
  | .node _ _ _ kids => kids

/-- Summary of the parent chain of a gadget, accumulated while descending
from the root: the raw rect fields of the ancestors (closest ancestor
first, exactly the rectangles getRectClippedToHierarchy intersects with),
the sums of the ancestor rect.x and rect.y fields (what getX and getY add),
and whether every ancestor is visible (what isVisible checks above the
gadget). -/
structure Ctx where
  anc : List Rect
  ox : Int
  oy : Int
  ancVisible : Bool
deriving Repr

def rootCtx : Ctx := ⟨[], 0, 0, true⟩

def childCtx (ctx : Ctx) (g : Gadget) : Ctx :=
  ⟨g.rect :: ctx.anc, ctx.ox + g.rect.x, ctx.oy + g.rect.y,
   ctx.ancVisible && g.visible⟩

/-- The absolute rectangle of a gadget: getX, getY, getWidth, getHeight. -/
def absRect (ctx : Ctx) (g : Gadget) : Rect :=
  ⟨ctx.ox + g.rect.x, ctx.oy + g.rect.y, g.rect.width, g.rect.height⟩

/-- CanvasUI.Rectangle.prototype.clipToIntersect (the mutation is modelled
by returning the clipped rectangle). -/
def Rect.clipToIntersect (self rect : Rect) : Rect := self.getIntersect rect

/-- CanvasUI.Gadget.prototype.getRectClippedToHierarchy: the absolute
rectangle successively clipped against the raw rect field of each ancestor,
closest ancestor first. -/
def clipRect (ctx : Ctx) (g : Gadget) : Rect :=
  ctx.anc.foldl (fun r pr => r.clipToIntersect pr) (absRect ctx g)

/-- CanvasUI.Gadget.prototype.isVisible for a gadget whose parent chain is
summarized by the context: the gadget is visible iff its own flag is set and
every ancestor is visible. -/
def isVisibleCtx (ctx : Ctx) (g : Gadget) : Bool :=
  ctx.ancVisible && g.visible

/-- CanvasUI.Gadget.prototype.getClientRect. -/
def Gadget.getClientRect (g : Gadget) : Rect :=
  ⟨g.border.left, g.border.top,
   g.rect.width - g.border.right - g.border.left,
   g.rect.height - g.border.bottom - g.border.top⟩

/-- The gadget reached from the given node by following a list of child
indices. -/
def gadgetAt : Gadget → List Nat → Option Gadget
  | g, [] => some g
  | g, i :: rest =>
    match g.children.get? i with
    | some c => gadgetAt c rest
    | none => none

/-- The absolute rectangle of the node at a path, with (gx, gy) the sum of
the rect offsets of the strict ancestors of the current subtree root. -/
def absRectAt (g : Gadget) (gx gy : Int) : List Nat → Rect
  | [] => ⟨gx + g.rect.x, gy + g.rect.y, g.rect.width, g.rect.height⟩
  | i :: rest =>
    match g.children.get? i with
    | some c => absRectAt c (gx + g.rect.x) (gy + g.rect.y) rest
    | none => ⟨0, 0, 0, 0⟩

/-- The raw rect fields of the strict ancestors of the node at a path,
closest ancestor first: exactly the rectangles the while loop of
getRectClippedToHierarchy clips against. -/
def ancRectsAt (g : Gadget) : List Nat → List Rect
  | [] => []
  | i :: rest =>
    match g.children.get? i with
    | some c => ancRectsAt c rest ++ [g.rect]
    | none => []

/-- getRectClippedToHierarchy of the node at a path from the root. -/
def clipRectAt (root : Gadget) (path : List Nat) : Rect :=
  (ancRectsAt root path).foldl (fun r pr => r.clipToIntersect pr)
    (absRectAt root 0 0 path)

/-- Modelled from the spec: the clipped screen-space rectangle of a node is
stated by the spec to be the absolute rectangle of the node intersected with
the client rect of every ancestor (the rectangle of the ancestor minus its
border inset) expressed in screen coordinates.  This definition follows the
words of the spec; the code definition is clipRectAt. -/
def ancClientScreenRectsAt (g : Gadget) (gx gy : Int) : List Nat → List Rect
  | [] => []
  | i :: rest =>
    match g.children.get? i with
    | some c =>
      ancClientScreenRectsAt c (gx + g.rect.x) (gy + g.rect.y) rest ++
        [⟨gx + g.rect.x + g.getClientRect.x, gy + g.rect.y + g.getClientRect.y,
          g.getClientRect.width, g.getClientRect.height⟩]
    | none => []

/-- Modelled from the spec: the clipped rectangle per the words of the spec,
intersecting the absolute rectangle of the node with each ancestor client
rect in screen coordinates. -/
def specClippedRect (root : Gadget) (path : List Nat) : Rect :=
  (ancClientScreenRectsAt root 0 0 path).foldl
    (fun r a => r.getIntersect a) (absRectAt root 0 0 path)

/-- A two-node tree for the C7 counterexample: a root with border inset one
on every side, and a child occupying the full rectangle of the root. -/
def c7Tree : Gadget :=
  .node ⟨0, 0, 10, 10⟩ true ⟨1, 1, 1, 1⟩
    [.node ⟨0, 0, 10, 10⟩ true ⟨0, 0, 0, 0⟩ []]

/-- CanvasUI.Gadget.prototype.getVisibleRects, occluder collection: walking
from the node at the path up to the root, the absolute rectangles of the
siblings that appear after the gadget of the current level in the child
list of its parent, innermost level first, in increasing sibling index.
No visibility flag is consulted. -/
def occludersAt (g : Gadget) (gx gy : Int) : List Nat → List Rect
  | [] => []
  | i :: rest =>
    match g.children.get? i with
    | some c =>
      occludersAt c (gx + g.rect.x) (gy + g.rect.y) rest ++
        (g.children.drop (i + 1)).map (fun s =>
          Rect.mk (gx + g.rect.x + s.rect.x) (gy + g.rect.y + s.rect.y)
            s.rect.width s.rect.height)
    | none => []

/-- CanvasUI.Gadget.prototype.getVisibleRects: start from the absolute
rectangle of the node and remove the overlap with each occluder in turn
using the splice/unshift split loop. -/
def getVisibleRects (root : Gadget) (path : List Nat) : List Rect :=
  (occludersAt root 0 0 path).foldl
    (fun vis o => removeOverlapped o vis) [absRectAt root 0 0 path]

/-- C6 counterexample tree: the gadget at index 0 is overlapped by a higher
sibling at index 1 whose visible flag is false. -/
def c6Tree : Gadget :=
  .node ⟨0, 0, 100, 100⟩ true ⟨0, 0, 0, 0⟩
    [.node ⟨0, 0, 10, 10⟩ true ⟨0, 0, 0, 0⟩ [],
     .node ⟨5, 5, 10, 10⟩ false ⟨0, 0, 0, 0⟩ []]


mutual
/-- CanvasUI.DamagedRectManager.prototype.drawRects: skip gadgets that are
not visible and empty damage lists, otherwise run the damaged rect loop
against the clipped rectangle of the gadget.  The first component is the
damaged rect array after the call (the source splices it in place); the
second is the list of draw calls issued, in order, each recording the path
of the gadget whose draw method ran and the rectangle passed to it. -/
def drawRects (ctx : Ctx) (path : List Nat) (gadget : Gadget)
    (damagedRects : List Rect) : List Rect × List (List Nat × Rect) :=
  match gadget with
  | Gadget.node r v b kids =>
    if ¬ (isVisibleCtx ctx (Gadget.node r v b kids) = true) then
      (damagedRects, [])
    else if damagedRects.isEmpty then (damagedRects, [])
    else
      drawLoop (childCtx ctx (Gadget.node r v b kids)) path kids
        (clipRect ctx (Gadget.node r v b kids)) [] damagedRects
termination_by (sizeOf gadget, 2, 0)

/-- The loop of drawRects over the damaged rect array: an element that does
not intersect the gadget moves past the cursor (into acc); an element that
intersects is removed, its remainder strips are unshifted to the front of
the array (so they are skipped for this gadget but kept for the caller),
and the intersection is sent through the children from the topmost down,
anything they leave behind being drawn by the gadget itself. -/
def drawLoop (cctx : Ctx) (path : List Nat) (kids : List Gadget)
    (gadgetRect : Rect) (acc unproc : List Rect) :
    List Rect × List (List Nat × Rect) :=
  match unproc with
  | [] => (acc, [])
  | d :: rest =>
    match gadgetRect.splitIntersection d with
    | none => drawLoop cctx path kids gadgetRect (acc ++ [d]) rest
    | some (inter, rems) =>
      let kres := drawKids cctx path 0 kids [inter]
      let res := drawLoop cctx path kids gadgetRect (rems.reverse ++ acc) rest
      (res.1, kres.2 ++ kres.1.map (fun lr => (path, lr)) ++ res.2)
termination_by (sizeOf kids, 1, unproc.length)

/-- The children loop of drawRects: children are visited from the last
(topmost) index down to the first, each child consuming from subRects the
parts it covers. -/
def drawKids (cctx : Ctx) (path : List Nat) (i : Nat) (kids : List Gadget)
    (subRects : List Rect) : List Rect × List (List Nat × Rect) :=
  match kids with
  | [] => (subRects, [])
  | k :: ks =>
    let r1 := drawKids cctx path (i + 1) ks subRects
    let r2 := drawRects cctx (path ++ [i]) k r1.1
    (r2.1, r1.2 ++ r2.2)
termination_by (sizeOf kids, 0, 0)
end

/-- The top-level redraw dispatch,
CanvasUI.DamagedRectManager.prototype.redraw: drawRects on the root gadget
with the accumulated damaged rects. -/
def drawRectsTop (root : Gadget) (damagedRects : List Rect) :
    List Rect × List (List Nat × Rect) :=
  drawRects rootCtx [] root damagedRects

/-- Whether the node at the path and all its ancestors have the visible
flag set: this is CanvasUI.Gadget.prototype.isVisible for the node at the
path. -/
def visibleChainB : Gadget → List Nat → Bool
  | g, [] => g.visible
  | g, i :: rest =>
    g.visible &&
      match g.children.get? i with
      | some c => visibleChainB c rest
      | none => false

mutual
/-- The same tree with every visible flag set to true. -/
def setAllVisibleTrue : Gadget → Gadget
  | .node r _ b kids => .node r true b (setAllVisibleTrueKids kids)
termination_by g => sizeOf g

/-- setAllVisibleTrue on every element of a child list. -/
def setAllVisibleTrueKids : List Gadget → List Gadget
  | [] => []
  | k :: ks => setAllVisibleTrue k :: setAllVisibleTrueKids ks
termination_by ks => sizeOf ks
end

mutual
/-- Every gadget in the tree has its visible flag set. -/
def allVisibleB : Gadget → Bool
  | .node _ v _ kids => v && allVisibleKidsB kids
termination_by g => sizeOf g

/-- allVisibleB on every element of a child list. -/
def allVisibleKidsB : List Gadget → Bool
  | [] => true
  | k :: ks => allVisibleB k && allVisibleKidsB ks
termination_by ks => sizeOf ks
end

mutual
/-- Every gadget in the tree, placed in its context, has a clipped
rectangle of positive dimensions. -/
def clipsPosB (ctx : Ctx) (g : Gadget) : Bool :=
  match g with
  | .node r v b kids =>
    (clipRect ctx (.node r v b kids)).hasDimensions &&
      clipsPosKidsB (childCtx ctx (.node r v b kids)) kids
termination_by (sizeOf g, 1)

/-- clipsPosB on every element of a child list. -/
def clipsPosKidsB (cctx : Ctx) (kids : List Gadget) : Bool :=
  match kids with
  | [] => true
  | k :: ks => clipsPosB cctx k && clipsPosKidsB cctx ks
termination_by (sizeOf kids, 0)
end

mutual
/-- The gadget that the redraw dispatch routes a pixel to, starting from a
gadget that covers the pixel: repeatedly descend into the highest-index
(topmost) visible child whose clipped rectangle contains the pixel; when no
child claims the pixel, the current gadget draws it. -/
def ownerPath (ctx : Ctx) (path : List Nat) (g : Gadget) (p : Int × Int) :
    List Nat :=
  match g with
  | .node r v b kids =>
    match ownerKids (childCtx ctx (.node r v b kids)) path 0 kids p with
    | some res => res
    | none => path
termination_by (sizeOf g, 1)

/-- Scan a child list for the topmost (highest-index) visible child whose
clipped rectangle contains the pixel, and return the owner path inside that
child. -/
def ownerKids (cctx : Ctx) (path : List Nat) (i : Nat) (kids : List Gadget)
    (p : Int × Int) : Option (List Nat) :=
  match kids with
  | [] => none
  | k :: ks =>
    match ownerKids cctx path (i + 1) ks p with
    | some res => some res
    | none =>
      if isVisibleCtx cctx k && (clipRect cctx k).memPtB p then
        some (ownerPath cctx (path ++ [i]) k p)
      else none
termination_by (sizeOf kids, 0)
end

/-- One-node tree for the C1 counterexample: a visible root at
(0,0,10,10). -/
def c1Tree : Gadget := .node ⟨0, 0, 10, 10⟩ true ⟨0, 0, 0, 0⟩ []

/-- Tree for the C1 witness: a visible root at (0,0,20,20) with one visible
child at (5,5,10,10). -/
def c1WitnessTree : Gadget :=
  .node ⟨0, 0, 20, 20⟩ true ⟨0, 0, 0, 0⟩
    [.node ⟨5, 5, 10, 10⟩ true ⟨0, 0, 0, 0⟩ []]

/-- One-node hidden tree for the C9 counterexample. -/
def c9Tree : Gadget := .node ⟨0, 0, 10, 10⟩ false ⟨0, 0, 0, 0⟩ []

/-- Tree for the C9 witness: a visible root with one hidden child. -/
def c9WitnessTree : Gadget :=
  .node ⟨0, 0, 30, 30⟩ true ⟨0, 0, 0, 0⟩
    [.node ⟨0, 0, 10, 10⟩ false ⟨0, 0, 0, 0⟩ []]


/-- The number of draw calls in a paint list whose rectangle contains the
pixel. -/
def paintCount (p : Int × Int) (paints : List (List Nat × Rect)) : Nat :=
  paints.countP (fun pr => pr.2.memPtB p)

/-- The pixel lies in the clipped rectangle of some child of the list. -/
def coveredKids (cctx : Ctx) (kids : List Gadget) (p : Int × Int) : Prop :=
  ∃ c ∈ kids, (clipRect cctx c).memPt p

instance (cctx : Ctx) (kids : List Gadget) (p : Int × Int) :
    Decidable (coveredKids cctx kids p) := by
  unfold coveredKids; infer_instance

/-! ### Theorems -/

theorem hasDimensions_iff (r : Rect) :
    r.hasDimensions = true ↔ 1 ≤ r.width ∧ 1 ≤ r.height := by
  unfold Rect.hasDimensions
  split_ifs with h1 h2 <;> simp <;> omega

theorem intersects_iff (a b : Rect) :
    a.intersects b = true ↔
      a.x + a.width > b.x ∧ a.y + a.height > b.y ∧
      a.x < b.x + b.width ∧ a.y < b.y + b.height := by
  unfold Rect.intersects
  simp [and_assoc]

/-- A rectangle with positive dimensions contains its top-left pixel. -/
theorem pos_has_pixel (r : Rect) (h : r.hasDimensions = true) :
    r.memPt (r.x, r.y) := by
  rw [hasDimensions_iff] at h
  exact ⟨le_refl _, by omega, le_refl _, by omega⟩

/-- For rectangles of positive dimensions, the boolean overlap test agrees
with nonemptiness of the pixel intersection. -/
theorem intersects_iff_exists (a b : Rect)
    (ha : a.hasDimensions = true) (hb : b.hasDimensions = true) :
    a.intersects b = true ↔ ∃ p, a.memPt p ∧ b.memPt p := by
  rw [hasDimensions_iff] at ha hb
  rw [intersects_iff]
  constructor
  · intro h
    refine ⟨(max a.x b.x, max a.y b.y), ⟨?_, ?_, ?_, ?_⟩, ⟨?_, ?_, ?_, ?_⟩⟩ <;> omega
  · rintro ⟨p, ⟨h1, h2, h3, h4⟩, ⟨h5, h6, h7, h8⟩⟩
    refine ⟨?_, ?_, ?_, ?_⟩ <;> omega

/-- The pixel set of getIntersect is exactly the intersection of the pixel
sets, for all integer rectangles. -/
theorem getIntersect_memPt (a b : Rect) (p : Int × Int) :
    (a.getIntersect b).memPt p ↔ a.memPt p ∧ b.memPt p := by
  unfold Rect.getIntersect Rect.getX2 Rect.getY2 Rect.memPt
  dsimp only
  split_ifs <;> constructor <;> (rintro h; try obtain ⟨h1, h2⟩ := h) <;>
    first
    | (refine ⟨⟨?_, ?_, ?_, ?_⟩, ⟨?_, ?_, ?_, ?_⟩⟩ <;> omega)
    | (refine ⟨?_, ?_, ?_, ?_⟩ <;> omega)

theorem splitIntersection_eq_none_iff (a b : Rect) :
    a.splitIntersection b = none ↔ a.intersects b = false := by
  unfold Rect.splitIntersection
  by_cases h : a.intersects b = true <;> simp [h]

theorem splitIntersection_isSome (a b : Rect) (h : a.intersects b = true) :
    ∃ i rems, a.splitIntersection b = some (i, rems) := by
  unfold Rect.splitIntersection
  rw [if_pos h]
  exact ⟨_, _, rfl⟩


/-- The trimmed intersection returned by splitIntersection is exactly the
pixelwise intersection of the two rectangles. -/
theorem split_inter_mem {A B i : Rect} {rems : List Rect}
    (h : A.splitIntersection B = some (i, rems)) :
    ∀ p, i.memPt p ↔ A.memPt p ∧ B.memPt p := by
  unfold Rect.splitIntersection at h
  by_cases hi : A.intersects B = true
  · rw [if_pos hi] at h
    rw [intersects_iff] at hi
    unfold Rect.carveBottom Rect.carveTop Rect.carveRight Rect.carveLeft at h
    dsimp only at h
    split_ifs at h <;>
      (try dsimp only at *
       simp only [Option.some.injEq, Prod.mk.injEq] at h
       obtain ⟨h1, h2⟩ := h
       subst h1
       intro p
       simp only [Rect.memPt]
       omega)
  · rw [if_neg hi] at h
    exact absurd h (by simp)

/-- The pixel set of the split rectangle is the union of the trimmed
intersection and the remainder strips. -/
theorem split_union_mem {A B i : Rect} {rems : List Rect}
    (h : A.splitIntersection B = some (i, rems)) :
    ∀ p, B.memPt p ↔ i.memPt p ∨ memUnion p rems := by
  unfold Rect.splitIntersection at h
  by_cases hi : A.intersects B = true
  · rw [if_pos hi] at h
    rw [intersects_iff] at hi
    unfold Rect.carveBottom Rect.carveTop Rect.carveRight Rect.carveLeft at h
    dsimp only at h
    split_ifs at h <;>
      (try dsimp only at *
       simp only [Option.some.injEq, Prod.mk.injEq] at h
       obtain ⟨h1, h2⟩ := h
       subst h1
       subst h2
       intro p
       simp [Rect.memPt, memUnion]
       try omega)
  · rw [if_neg hi] at h
    exact absurd h (by simp)

/-- Every remainder strip is pixel-disjoint from the clipping base. -/
theorem split_rems_disj_base {A B i : Rect} {rems : List Rect}
    (h : A.splitIntersection B = some (i, rems)) :
    ∀ r ∈ rems, pixDisj r A := by
  unfold Rect.splitIntersection at h
  by_cases hi : A.intersects B = true
  · rw [if_pos hi] at h
    rw [intersects_iff] at hi
    unfold Rect.carveBottom Rect.carveTop Rect.carveRight Rect.carveLeft at h
    dsimp only at h
    split_ifs at h <;>
      (try dsimp only at *
       simp only [Option.some.injEq, Prod.mk.injEq] at h
       obtain ⟨h1, h2⟩ := h
       subst h1
       subst h2
       simp only [List.nil_append, List.singleton_append, List.append_nil,
         List.cons_append, pixDisj, Rect.memPt, List.forall_mem_cons,
         List.not_mem_nil, false_implies, implies_true, forall_const,
         and_true, true_and]
       and_intros
       all_goals intro p
       all_goals omega)
  · rw [if_neg hi] at h
    exact absurd h (by simp)

/-- When both rectangles have positive dimensions, the trimmed intersection
and the remainder strips are pairwise pixel-disjoint. -/
theorem split_pairwise {A B i : Rect} {rems : List Rect}
    (hA : A.hasDimensions = true) (_hB : B.hasDimensions = true)
    (h : A.splitIntersection B = some (i, rems)) :
    PairwiseDisj (i :: rems) := by
  rw [hasDimensions_iff] at hA
  unfold Rect.splitIntersection at h
  by_cases hi : A.intersects B = true
  · rw [if_pos hi] at h
    rw [intersects_iff] at hi
    unfold Rect.carveBottom Rect.carveTop Rect.carveRight Rect.carveLeft at h
    dsimp only at h
    split_ifs at h <;>
      (try dsimp only at *
       simp only [Option.some.injEq, Prod.mk.injEq] at h
       obtain ⟨h1, h2⟩ := h
       subst h1
       subst h2
       simp only [List.nil_append, List.singleton_append, List.append_nil,
         List.cons_append, PairwiseDisj, List.pairwise_cons, List.mem_cons,
         List.mem_singleton, List.not_mem_nil, forall_eq_or_imp, forall_eq,
         false_implies, implies_true, forall_const, and_true, true_and,
         pixDisj, Rect.memPt]
       and_intros
       all_goals try exact List.Pairwise.nil
       all_goals intro p
       all_goals omega)
  · rw [if_neg hi] at h
    exact absurd h (by simp)

/-- When both rectangles have positive dimensions, so do the trimmed
intersection and every remainder strip. -/
theorem split_pos {A B i : Rect} {rems : List Rect}
    (hA : A.hasDimensions = true) (hB : B.hasDimensions = true)
    (h : A.splitIntersection B = some (i, rems)) :
    i.hasDimensions = true ∧ ∀ r ∈ rems, r.hasDimensions = true := by
  rw [hasDimensions_iff] at hA hB
  unfold Rect.splitIntersection at h
  by_cases hi : A.intersects B = true
  · rw [if_pos hi] at h
    rw [intersects_iff] at hi
    unfold Rect.carveBottom Rect.carveTop Rect.carveRight Rect.carveLeft at h
    dsimp only at h
    split_ifs at h <;>
      (try dsimp only at *
       simp only [Option.some.injEq, Prod.mk.injEq] at h
       obtain ⟨h1, h2⟩ := h
       subst h1
       subst h2
       simp only [List.nil_append, List.singleton_append, List.append_nil,
         List.cons_append, hasDimensions_iff, List.forall_mem_cons,
         List.not_mem_nil, false_implies, implies_true, forall_const,
         and_true, true_and]
       and_intros
       all_goals omega)
  · rw [if_neg hi] at h
    exact absurd h (by simp)

/-- splitIntersection returns at most four remainder strips. -/
theorem split_len {A B i : Rect} {rems : List Rect}
    (h : A.splitIntersection B = some (i, rems)) :
    rems.length ≤ 4 := by
  unfold Rect.splitIntersection at h
  by_cases hi : A.intersects B = true
  · rw [if_pos hi] at h
    unfold Rect.carveBottom Rect.carveTop Rect.carveRight Rect.carveLeft at h
    dsimp only at h
    split_ifs at h <;>
      (try dsimp only at *
       simp only [Option.some.injEq, Prod.mk.injEq] at h
       obtain ⟨h1, h2⟩ := h
       subst h2
       simp)
  · rw [if_neg hi] at h
    exact absurd h (by simp)

/-- Area conservation: the area of the split rectangle equals the area of the
trimmed intersection plus the total area of the remainder strips. -/
theorem split_area {A B i : Rect} {rems : List Rect}
    (h : A.splitIntersection B = some (i, rems)) :
    i.width * i.height + areaSum rems = B.width * B.height := by
  unfold Rect.splitIntersection at h
  by_cases hi : A.intersects B = true
  · rw [if_pos hi] at h
    unfold Rect.carveBottom Rect.carveTop Rect.carveRight Rect.carveLeft at h
    dsimp only at h
    split_ifs at h <;>
      (try dsimp only at *
       simp only [Option.some.injEq, Prod.mk.injEq] at h
       obtain ⟨h1, h2⟩ := h
       subst h1
       subst h2
       simp only [List.nil_append, List.singleton_append, List.append_nil,
         List.cons_append, areaSum, List.map_cons, List.map_nil,
         List.sum_cons, List.sum_nil, add_zero]
       try ring)
  · rw [if_neg hi] at h
    exact absurd h (by simp)

/-- Every remainder strip is pixelwise contained in the split rectangle. -/
theorem split_rems_sub {A B i : Rect} {rems : List Rect}
    (h : A.splitIntersection B = some (i, rems)) :
    ∀ r ∈ rems, ∀ p, r.memPt p → B.memPt p := by
  intro r hr p hp
  rw [split_union_mem h p]
  exact Or.inr ⟨r, hr, hp⟩

/-- For rectangles of positive dimensions, a none result of splitIntersection
means the pixel sets are disjoint. -/
theorem split_none_disj {A B : Rect}
    (hA : A.hasDimensions = true) (hB : B.hasDimensions = true)
    (h : A.splitIntersection B = none) : pixDisj A B := by
  rw [splitIntersection_eq_none_iff] at h
  intro p hp
  have : A.intersects B = true := by
    rw [intersects_iff_exists A B hA hB]
    exact ⟨p, hp⟩
  rw [h] at this
  exact Bool.false_ne_true this

theorem memUnion_append (p : Int × Int) (l1 l2 : List Rect) :
    memUnion p (l1 ++ l2) ↔ memUnion p l1 ∨ memUnion p l2 := by
  simp [memUnion, List.mem_append]
  constructor
  · rintro ⟨r, (h | h), hm⟩
    · exact Or.inl ⟨r, h, hm⟩
    · exact Or.inr ⟨r, h, hm⟩
  · rintro (⟨r, h, hm⟩ | ⟨r, h, hm⟩)
    · exact ⟨r, Or.inl h, hm⟩
    · exact ⟨r, Or.inr h, hm⟩

theorem memUnion_reverse (p : Int × Int) (l : List Rect) :
    memUnion p l.reverse ↔ memUnion p l := by
  simp [memUnion]

theorem memUnion_cons (p : Int × Int) (r : Rect) (l : List Rect) :
    memUnion p (r :: l) ↔ r.memPt p ∨ memUnion p l := by
  simp [memUnion]

theorem memUnion_nil (p : Int × Int) : ¬ memUnion p ([] : List Rect) := by
  simp [memUnion]

theorem memUnion_singleton (p : Int × Int) (r : Rect) :
    memUnion p [r] ↔ r.memPt p := by
  simp [memUnion]

theorem pixDisj_symm {a b : Rect} (h : pixDisj a b) : pixDisj b a := by
  intro p hp
  exact h p ⟨hp.2, hp.1⟩

theorem pixDisj_of_sub {r d e : Rect} (hsub : ∀ p, r.memPt p → d.memPt p)
    (h : pixDisj d e) : pixDisj r e := by
  intro p hp
  exact h p ⟨hsub p hp.1, hp.2⟩

theorem PairwiseDisj_append {l1 l2 : List Rect} (h1 : PairwiseDisj l1)
    (h2 : PairwiseDisj l2) (h12 : ∀ a ∈ l1, ∀ b ∈ l2, pixDisj a b) :
    PairwiseDisj (l1 ++ l2) :=
  List.pairwise_append.mpr ⟨h1, h2, h12⟩

theorem PairwiseDisj_reverse {l : List Rect} (h : PairwiseDisj l) :
    PairwiseDisj l.reverse := by
  rw [PairwiseDisj, List.pairwise_reverse]
  exact h.imp pixDisj_symm

/-- The union of the remainder strips is exactly the part of the split
rectangle outside the base. -/
theorem split_rems_union_iff {A B i : Rect} {rems : List Rect}
    (h : A.splitIntersection B = some (i, rems)) :
    ∀ p, memUnion p rems ↔ B.memPt p ∧ ¬ A.memPt p := by
  intro p
  constructor
  · rintro hm
    obtain ⟨r, hr, hp⟩ := hm
    refine ⟨split_rems_sub h r hr p hp, fun hA => ?_⟩
    exact split_rems_disj_base h r hr p ⟨hp, hA⟩
  · rintro ⟨hB, hA⟩
    rcases (split_union_mem h p).mp hB with hi | hm
    · exact absurd ((split_inter_mem h p).mp hi).1 hA
    · exact hm

theorem removeOverlappedAux_union (base : Rect)
    (hbase : base.hasDimensions = true) :
    ∀ (l acc : List Rect), (∀ r ∈ l, r.hasDimensions = true) →
      ∀ p, memUnion p (removeOverlappedAux base acc l) ↔
        memUnion p acc ∨ (memUnion p l ∧ ¬ base.memPt p) := by
  intro l
  induction l with
  | nil =>
    intro acc _ p
    simp [removeOverlappedAux, memUnion_nil]
  | cons d rest ih =>
    intro acc hl p
    have hd : d.hasDimensions = true := hl d (by simp)
    have hrest : ∀ r ∈ rest, r.hasDimensions = true :=
      fun r hr => hl r (by simp [hr])
    unfold removeOverlappedAux
    rcases hsp : base.splitIntersection d with _ | ⟨i, rems⟩
    · have hdisj := split_none_disj hbase hd hsp
      rw [ih (acc ++ [d]) hrest p, memUnion_append, memUnion_singleton,
        memUnion_cons]
      constructor
      · rintro ((h | h) | h)
        · exact Or.inl h
        · exact Or.inr ⟨Or.inl h, fun hb => hdisj p ⟨hb, h⟩⟩
        · exact Or.inr ⟨Or.inr h.1, h.2⟩
      · rintro (h | ⟨(h | h), hb⟩)
        · exact Or.inl (Or.inl h)
        · exact Or.inl (Or.inr h)
        · exact Or.inr ⟨h, hb⟩
    · rw [ih (rems.reverse ++ acc) hrest p, memUnion_append, memUnion_reverse,
        split_rems_union_iff hsp p, memUnion_cons]
      constructor
      · rintro ((⟨h1, h2⟩ | h) | ⟨h, hb⟩)
        · exact Or.inr ⟨Or.inl h1, h2⟩
        · exact Or.inl h
        · exact Or.inr ⟨Or.inr h, hb⟩
      · rintro (h | ⟨(h | h), hb⟩)
        · exact Or.inl (Or.inr h)
        · exact Or.inl (Or.inl ⟨h, hb⟩)
        · exact Or.inr ⟨h, hb⟩

theorem removeOverlappedAux_pos (base : Rect)
    (hbase : base.hasDimensions = true) :
    ∀ (l acc : List Rect), (∀ r ∈ l, r.hasDimensions = true) →
      (∀ r ∈ acc, r.hasDimensions = true) →
      ∀ r ∈ removeOverlappedAux base acc l, r.hasDimensions = true := by
  intro l
  induction l with
  | nil =>
    intro acc _ hacc
    simpa [removeOverlappedAux] using hacc
  | cons d rest ih =>
    intro acc hl hacc
    have hd : d.hasDimensions = true := hl d (by simp)
    have hrest : ∀ r ∈ rest, r.hasDimensions = true :=
      fun r hr => hl r (by simp [hr])
    unfold removeOverlappedAux
    rcases hsp : base.splitIntersection d with _ | ⟨i, rems⟩
    · refine ih (acc ++ [d]) hrest ?_
      intro r hr
      rcases List.mem_append.mp hr with h | h
      · exact hacc r h
      · rw [List.mem_singleton.mp h]; exact hd
    · refine ih (rems.reverse ++ acc) hrest ?_
      intro r hr
      rcases List.mem_append.mp hr with h | h
      · exact (split_pos hbase hd hsp).2 r (List.mem_reverse.mp h)
      · exact hacc r h

theorem removeOverlappedAux_pairwise (base : Rect)
    (hbase : base.hasDimensions = true) :
    ∀ (l acc : List Rect), (∀ r ∈ l, r.hasDimensions = true) →
      PairwiseDisj l → PairwiseDisj acc →
      (∀ a ∈ acc, ∀ d ∈ l, pixDisj a d) →
      PairwiseDisj (removeOverlappedAux base acc l) := by
  intro l
  induction l with
  | nil =>
    intro acc _ _ hacc _
    simpa [removeOverlappedAux] using hacc
  | cons d rest ih =>
    intro acc hl hpl hpacc hcross
    have hd : d.hasDimensions = true := hl d (by simp)
    have hrest : ∀ r ∈ rest, r.hasDimensions = true :=
      fun r hr => hl r (by simp [hr])
    have hdl : ∀ e ∈ rest, pixDisj d e := (List.pairwise_cons.mp hpl).1
    have hpl2 : PairwiseDisj rest := (List.pairwise_cons.mp hpl).2
    unfold removeOverlappedAux
    rcases hsp : base.splitIntersection d with _ | ⟨i, rems⟩
    · refine ih (acc ++ [d]) hrest hpl2 ?_ ?_
      · refine PairwiseDisj_append hpacc (List.pairwise_singleton _ _) ?_
        intro a ha b hb
        rw [List.mem_singleton.mp hb]
        exact hcross a ha d (by simp)
      · intro a ha e he
        rcases List.mem_append.mp ha with h | h
        · exact hcross a h e (by simp [he])
        · rw [List.mem_singleton.mp h]
          exact hdl e he
    · have hremsub : ∀ r ∈ rems, ∀ p, r.memPt p → d.memPt p :=
        split_rems_sub hsp
      have hprems : PairwiseDisj rems :=
        (List.pairwise_cons.mp (split_pairwise hbase hd hsp)).2
      refine ih (rems.reverse ++ acc) hrest hpl2 ?_ ?_
      · refine PairwiseDisj_append (PairwiseDisj_reverse hprems) hpacc ?_
        intro a ha b hb
        exact pixDisj_of_sub (hremsub a (List.mem_reverse.mp ha))
          (pixDisj_symm (hcross b hb d (by simp)))
      · intro a ha e he
        rcases List.mem_append.mp ha with h | h
        · exact pixDisj_of_sub (hremsub a (List.mem_reverse.mp h)) (hdl e he)
        · exact hcross a h e (by simp [he])

theorem removeOverlapped_union (base : Rect) (l : List Rect)
    (hbase : base.hasDimensions = true)
    (hl : ∀ r ∈ l, r.hasDimensions = true) :
    ∀ p, memUnion p (removeOverlapped base l) ↔
      memUnion p l ∧ ¬ base.memPt p := by
  intro p
  rw [removeOverlapped, removeOverlappedAux_union base hbase l [] hl p]
  simp [memUnion_nil]

theorem removeOverlapped_pos (base : Rect) (l : List Rect)
    (hbase : base.hasDimensions = true)
    (hl : ∀ r ∈ l, r.hasDimensions = true) :
    ∀ r ∈ removeOverlapped base l, r.hasDimensions = true := by
  refine removeOverlappedAux_pos base hbase l [] hl ?_
  intro r hr
  exact absurd hr (List.not_mem_nil r)

theorem removeOverlapped_pairwise (base : Rect) (l : List Rect)
    (hbase : base.hasDimensions = true)
    (hl : ∀ r ∈ l, r.hasDimensions = true) (hp : PairwiseDisj l) :
    PairwiseDisj (removeOverlapped base l) := by
  refine removeOverlappedAux_pairwise base hbase l [] hl hp List.Pairwise.nil ?_
  intro a ha
  exact absurd ha (List.not_mem_nil a)

theorem damageFold_union (dr : List Rect)
    (hdr : ∀ d ∈ dr, d.hasDimensions = true) :
    ∀ (init : List Rect), (∀ r ∈ init, r.hasDimensions = true) →
      ∀ p, memUnion p (dr.foldl (fun q d => removeOverlapped d q) init) ↔
        memUnion p init ∧ ¬ memUnion p dr := by
  induction dr with
  | nil =>
    intro init _ p
    simp [memUnion_nil]
  | cons d rest ih =>
    intro init hinit p
    have hd : d.hasDimensions = true := hdr d (by simp)
    have hrest : ∀ e ∈ rest, e.hasDimensions = true :=
      fun e he => hdr e (by simp [he])
    have hinit2 := removeOverlapped_pos d init hd hinit
    rw [List.foldl_cons, ih hrest (removeOverlapped d init) hinit2 p,
      removeOverlapped_union d init hd hinit p, memUnion_cons]
    constructor
    · rintro ⟨⟨h1, h2⟩, h3⟩
      exact ⟨h1, fun hc => hc.elim h2 h3⟩
    · rintro ⟨h1, h2⟩
      exact ⟨⟨h1, fun hc => h2 (Or.inl hc)⟩, fun hc => h2 (Or.inr hc)⟩

theorem damageFold_pos (dr : List Rect)
    (hdr : ∀ d ∈ dr, d.hasDimensions = true) :
    ∀ (init : List Rect), (∀ r ∈ init, r.hasDimensions = true) →
      ∀ r ∈ dr.foldl (fun q d => removeOverlapped d q) init,
        r.hasDimensions = true := by
  induction dr with
  | nil => intro init hinit; simpa using hinit
  | cons d rest ih =>
    intro init hinit
    have hd : d.hasDimensions = true := hdr d (by simp)
    have hrest : ∀ e ∈ rest, e.hasDimensions = true :=
      fun e he => hdr e (by simp [he])
    rw [List.foldl_cons]
    exact ih hrest _ (removeOverlapped_pos d init hd hinit)

theorem damageFold_pairwise (dr : List Rect)
    (hdr : ∀ d ∈ dr, d.hasDimensions = true) :
    ∀ (init : List Rect), (∀ r ∈ init, r.hasDimensions = true) →
      PairwiseDisj init →
      PairwiseDisj (dr.foldl (fun q d => removeOverlapped d q) init) := by
  induction dr with
  | nil => intro init _ hp; simpa using hp
  | cons d rest ih =>
    intro init hinit hp
    have hd : d.hasDimensions = true := hdr d (by simp)
    have hrest : ∀ e ∈ rest, e.hasDimensions = true :=
      fun e he => hdr e (by simp [he])
    rw [List.foldl_cons]
    exact ih hrest _ (removeOverlapped_pos d init hd hinit)
      (removeOverlapped_pairwise d init hd hinit hp)

/-- Covered-area effect of a single addDamagedRect call. -/
theorem addDamagedRect_union (dr : List Rect) (r : Rect)
    (hdr : ∀ d ∈ dr, d.hasDimensions = true) (hr : r.hasDimensions = true) :
    ∀ p, memUnion p (addDamagedRect dr r) ↔ memUnion p dr ∨ r.memPt p := by
  intro p
  rw [addDamagedRect, memUnion_append,
    damageFold_union dr hdr [r] (by simpa using hr) p, memUnion_singleton]
  constructor
  · rintro (h | ⟨h1, h2⟩)
    · exact Or.inl h
    · exact Or.inr h1
  · rintro (h | h)
    · exact Or.inl h
    · by_cases hd : memUnion p dr
      · exact Or.inl hd
      · exact Or.inr ⟨h, hd⟩

theorem addDamagedRect_pos (dr : List Rect) (r : Rect)
    (hdr : ∀ d ∈ dr, d.hasDimensions = true) (hr : r.hasDimensions = true) :
    ∀ d ∈ addDamagedRect dr r, d.hasDimensions = true := by
  intro d hd
  rcases List.mem_append.mp hd with h | h
  · exact hdr d h
  · exact damageFold_pos dr hdr [r] (by simpa using hr) d h

theorem addDamagedRect_pairwise (dr : List Rect) (r : Rect)
    (hdr : ∀ d ∈ dr, d.hasDimensions = true) (hr : r.hasDimensions = true)
    (hp : PairwiseDisj dr) : PairwiseDisj (addDamagedRect dr r) := by
  rw [addDamagedRect]
  refine PairwiseDisj_append hp
    (damageFold_pairwise dr hdr [r] (by simpa using hr)
      (List.pairwise_singleton _ _)) ?_
  intro a ha b hb p hpp
  have hq := (damageFold_union dr hdr [r] (by simpa using hr) p).mp ⟨b, hb, hpp.2⟩
  exact hq.2 ⟨a, ha, hpp.1⟩

/-- A list of rectangles of positive dimensions with empty pixel union is the
empty list. -/
theorem union_empty_eq_nil (l : List Rect)
    (hl : ∀ r ∈ l, r.hasDimensions = true)
    (h : ∀ p, ¬ memUnion p l) : l = [] := by
  cases l with
  | nil => rfl
  | cons d rest =>
    exact absurd ⟨d, by simp, pos_has_pixel d (hl d (by simp))⟩ (h (d.x, d.y))

theorem memPt_hasDimensions {r : Rect} {p : Int × Int} (h : r.memPt p) :
    r.hasDimensions = true := by
  rw [hasDimensions_iff]
  obtain ⟨h1, h2, h3, h4⟩ := h
  omega

theorem damageState_pos (rs : List Rect)
    (h : ∀ r ∈ rs, r.hasDimensions = true) :
    ∀ (dr : List Rect), (∀ d ∈ dr, d.hasDimensions = true) →
      ∀ d ∈ rs.foldl addDamagedRect dr, d.hasDimensions = true := by
  induction rs with
  | nil => intro dr hdr; simpa using hdr
  | cons r rest ih =>
    intro dr hdr
    have hr : r.hasDimensions = true := h r (by simp)
    have hrest : ∀ e ∈ rest, e.hasDimensions = true :=
      fun e he => h e (by simp [he])
    rw [List.foldl_cons]
    exact ih hrest _ (addDamagedRect_pos dr r hdr hr)

theorem damageState_union (rs : List Rect)
    (h : ∀ r ∈ rs, r.hasDimensions = true) :
    ∀ (dr : List Rect), (∀ d ∈ dr, d.hasDimensions = true) →
      ∀ p, memUnion p (rs.foldl addDamagedRect dr) ↔
        memUnion p dr ∨ memUnion p rs := by
  induction rs with
  | nil => intro dr _ p; simp [memUnion_nil]
  | cons r rest ih =>
    intro dr hdr p
    have hr : r.hasDimensions = true := h r (by simp)
    have hrest : ∀ e ∈ rest, e.hasDimensions = true :=
      fun e he => h e (by simp [he])
    rw [List.foldl_cons, ih hrest _ (addDamagedRect_pos dr r hdr hr) p,
      addDamagedRect_union dr r hdr hr p, memUnion_cons]
    tauto

theorem damageState_pairwise (rs : List Rect)
    (h : ∀ r ∈ rs, r.hasDimensions = true) :
    ∀ (dr : List Rect), (∀ d ∈ dr, d.hasDimensions = true) →
      PairwiseDisj dr → PairwiseDisj (rs.foldl addDamagedRect dr) := by
  induction rs with
  | nil => intro dr _ hp; simpa using hp
  | cons r rest ih =>
    intro dr hdr hp
    have hr : r.hasDimensions = true := h r (by simp)
    have hrest : ∀ e ∈ rest, e.hasDimensions = true :=
      fun e he => h e (by simp [he])
    rw [List.foldl_cons]
    exact ih hrest _ (addDamagedRect_pos dr r hdr hr)
      (addDamagedRect_pairwise dr r hdr hr hp)

/-- C2: for rectangles of positive dimensions, splitIntersection returns
null exactly when the rectangles are pixel-disjoint, and otherwise returns
the clipped overlap plus at most four remainder strips that are pairwise
disjoint, have positive dimensions, partition the pixel set of the split
rectangle, and conserve its area. -/
theorem c2_splitIntersection_partition (A B : Rect)
    (hA : A.hasDimensions = true) (hB : B.hasDimensions = true) :
    (A.splitIntersection B = none ↔ pixDisj A B) ∧
    (∀ i rems, A.splitIntersection B = some (i, rems) →
      rems.length ≤ 4 ∧
      (∀ p, i.memPt p ↔ A.memPt p ∧ B.memPt p) ∧
      (∀ p, B.memPt p ↔ i.memPt p ∨ memUnion p rems) ∧
      PairwiseDisj (i :: rems) ∧
      i.hasDimensions = true ∧ (∀ r ∈ rems, r.hasDimensions = true) ∧
      i.width * i.height + areaSum rems = B.width * B.height) := by
  constructor
  · constructor
    · exact fun h => split_none_disj hA hB h
    · intro hd
      rw [splitIntersection_eq_none_iff]
      rw [Bool.eq_false_iff]
      intro hc
      obtain ⟨p, hp⟩ := (intersects_iff_exists A B hA hB).mp hc
      exact hd p hp
  · intro i rems hs
    exact ⟨split_len hs, split_inter_mem hs, split_union_mem hs,
      split_pairwise hA hB hs, (split_pos hA hB hs).1, (split_pos hA hB hs).2,
      split_area hs⟩

/-- Witness for C2 at the spec scenario rectangles (0,0,10,10) and
(5,5,10,10). -/
theorem c2_witness :
    (Rect.mk 0 0 10 10).hasDimensions = true ∧
    (Rect.mk 5 5 10 10).hasDimensions = true ∧
    ((Rect.mk 0 0 10 10).splitIntersection (Rect.mk 5 5 10 10) = none ↔
      pixDisj (Rect.mk 0 0 10 10) (Rect.mk 5 5 10 10)) ∧
    (∀ i rems,
      (Rect.mk 0 0 10 10).splitIntersection (Rect.mk 5 5 10 10) =
        some (i, rems) →
      rems.length ≤ 4 ∧
      (∀ p, i.memPt p ↔
        (Rect.mk 0 0 10 10).memPt p ∧ (Rect.mk 5 5 10 10).memPt p) ∧
      (∀ p, (Rect.mk 5 5 10 10).memPt p ↔ i.memPt p ∨ memUnion p rems) ∧
      PairwiseDisj (i :: rems) ∧
      i.hasDimensions = true ∧ (∀ r ∈ rems, r.hasDimensions = true) ∧
      i.width * i.height + areaSum rems = 10 * 10) :=
  ⟨by decide, by decide,
   (c2_splitIntersection_partition (Rect.mk 0 0 10 10) (Rect.mk 5 5 10 10)
     (by decide) (by decide)).1,
   (c2_splitIntersection_partition (Rect.mk 0 0 10 10) (Rect.mk 5 5 10 10)
     (by decide) (by decide)).2⟩

/-- C8: getIntersect yields a drawable rectangle (positive dimensions in the
sense of hasDimensions) exactly when the two rectangles overlap in a region
of positive width and height; whenever they do not overlap, the returned
rectangle has width or height below 1 and is treated as empty. -/
theorem c8_getIntersect_drawable (a b : Rect) :
    ((a.getIntersect b).hasDimensions = true ↔
      ∃ p, a.memPt p ∧ b.memPt p) ∧
    (∀ p, (a.getIntersect b).memPt p ↔ a.memPt p ∧ b.memPt p) := by
  constructor
  · constructor
    · intro h
      exact ⟨_, (getIntersect_memPt a b _).mp (pos_has_pixel _ h)⟩
    · rintro ⟨p, hp⟩
      exact memPt_hasDimensions ((getIntersect_memPt a b p).mpr hp)
  · exact getIntersect_memPt a b

/-- C3: starting from an empty damage set, after any sequence of
addDamagedRect calls with rectangles of positive dimensions, the members of
the damaged rect array are pairwise pixel-disjoint. -/
theorem c3_damage_pairwise_disjoint (rs : List Rect)
    (h : ∀ r ∈ rs, r.hasDimensions = true) :
    PairwiseDisj (rs.foldl addDamagedRect []) := by
  refine damageState_pairwise rs h [] ?_ List.Pairwise.nil
  intro d hd
  exact absurd hd (List.not_mem_nil d)

/-- Witness for C3 on two overlapping damage rectangles. -/
theorem c3_witness :
    (∀ r ∈ [Rect.mk 0 0 4 4, Rect.mk 2 2 4 4], r.hasDimensions = true) ∧
    PairwiseDisj
      ([Rect.mk 0 0 4 4, Rect.mk 2 2 4 4].foldl addDamagedRect []) :=
  ⟨by decide,
   c3_damage_pairwise_disjoint [Rect.mk 0 0 4 4, Rect.mk 2 2 4 4] (by decide)⟩

/-- C4: starting from an empty damage set, the union of the pixel sets of
the damage set members equals the union of the pixel sets of all rectangles
passed to addDamagedRect. -/
theorem c4_damage_coverage (rs : List Rect)
    (h : ∀ r ∈ rs, r.hasDimensions = true) :
    ∀ p, memUnion p (rs.foldl addDamagedRect []) ↔ memUnion p rs := by
  intro p
  rw [damageState_union rs h [] (fun d hd => absurd hd (List.not_mem_nil d)) p]
  simp [memUnion_nil]

/-- Witness for C4 on two overlapping damage rectangles. -/
theorem c4_witness :
    (∀ r ∈ [Rect.mk 0 0 4 4, Rect.mk 2 2 4 4], r.hasDimensions = true) ∧
    ∀ p, memUnion p ([Rect.mk 0 0 4 4, Rect.mk 2 2 4 4].foldl addDamagedRect [])
      ↔ memUnion p [Rect.mk 0 0 4 4, Rect.mk 2 2 4 4] :=
  ⟨by decide,
   c4_damage_coverage [Rect.mk 0 0 4 4, Rect.mk 2 2 4 4] (by decide)⟩

/-- C5: adding a rectangle that is already covered (the same rectangle again,
or any sub-rectangle of it) leaves the damage set literally unchanged, for
every damage-set state whose members have positive dimensions. -/
theorem c5_addDamagedRect_idempotent (dr : List Rect) (r r2 : Rect)
    (hdr : ∀ d ∈ dr, d.hasDimensions = true)
    (hr : r.hasDimensions = true) (hr2 : r2.hasDimensions = true)
    (hsub : ∀ p, r2.memPt p → r.memPt p) :
    addDamagedRect (addDamagedRect dr r) r2 = addDamagedRect dr r := by
  have hdr2 : ∀ d ∈ addDamagedRect dr r, d.hasDimensions = true :=
    addDamagedRect_pos dr r hdr hr
  have hq : (addDamagedRect dr r).foldl
      (fun q d => removeOverlapped d q) [r2] = [] := by
    refine union_empty_eq_nil _
      (damageFold_pos _ hdr2 [r2] (by simpa using hr2)) ?_
    intro p hp
    rw [damageFold_union _ hdr2 [r2] (by simpa using hr2) p,
      memUnion_singleton] at hp
    exact hp.2 ((addDamagedRect_union dr r hdr hr p).mpr (Or.inr (hsub p hp.1)))
  show addDamagedRect dr r ++ _ = addDamagedRect dr r
  rw [hq, List.append_nil]

/-- Witness for C5: the spec scenario, damaging (0,0,20,20) twice on an empty
set, leaves the set unchanged after the second call, with total covered area
400 and pairwise disjoint members. -/
theorem c5_witness :
    addDamagedRect (addDamagedRect [] (Rect.mk 0 0 20 20)) (Rect.mk 0 0 20 20)
        = addDamagedRect [] (Rect.mk 0 0 20 20) ∧
    areaSum (addDamagedRect (addDamagedRect [] (Rect.mk 0 0 20 20))
        (Rect.mk 0 0 20 20)) = 400 ∧
    PairwiseDisj (addDamagedRect (addDamagedRect [] (Rect.mk 0 0 20 20))
        (Rect.mk 0 0 20 20)) :=
  ⟨c5_addDamagedRect_idempotent [] (Rect.mk 0 0 20 20) (Rect.mk 0 0 20 20)
     (by decide) (by decide) (by decide) (fun _ h => h),
   by decide,
   by
    rw [c5_addDamagedRect_idempotent [] (Rect.mk 0 0 20 20) (Rect.mk 0 0 20 20)
      (by decide) (by decide) (by decide) (fun _ h => h)]
    show PairwiseDisj [Rect.mk 0 0 20 20]
    exact List.pairwise_singleton _ _⟩

/-- C10: addDamagedRect never removes, reorders or mutates the stored
rectangles: the resulting array is the previous array with a (possibly
empty) list of new rectangles appended, so the first members are exactly the
previous members. -/
theorem c10_addDamagedRect_append_only (dr : List Rect) (r : Rect) :
    (∃ suffix, addDamagedRect dr r = dr ++ suffix) ∧
    (addDamagedRect dr r).take dr.length = dr :=
  ⟨⟨_, rfl⟩, by rw [addDamagedRect, List.take_left]⟩

theorem clipFold_mem (anc : List Rect) :
    ∀ (r : Rect) (p : Int × Int),
      (anc.foldl (fun r pr => r.clipToIntersect pr) r).memPt p ↔
        r.memPt p ∧ ∀ a ∈ anc, a.memPt p := by
  induction anc with
  | nil => intro r p; simp
  | cons a rest ih =>
    intro r p
    rw [List.foldl_cons]
    rw [ih (r.clipToIntersect a) p]
    rw [Rect.clipToIntersect, getIntersect_memPt]
    simp only [List.mem_cons]
    constructor
    · rintro ⟨⟨h1, h2⟩, h3⟩
      refine ⟨h1, ?_⟩
      rintro b (rfl | hb)
      · exact h2
      · exact h3 b hb
    · rintro ⟨h1, h2⟩
      exact ⟨⟨h1, h2 a (Or.inl rfl)⟩, fun b hb => h2 b (Or.inr hb)⟩

/-- C7 counterexample: getRectClippedToHierarchy clips against the raw
ancestor rectangles, not against the ancestor client rects, so the pixel
(0,0), which lies on the border of the root and outside its client area, is
inside the clipped rectangle of the child even though the spec formula
excludes it. -/
theorem c7_counterexample :
    (clipRectAt c7Tree [0]).memPt (0, 0) ∧
    ¬ (specClippedRect c7Tree [0]).memPt (0, 0) := by
  decide

/-- C7 (amended): the clipped rectangle computed by
getRectClippedToHierarchy is the absolute rectangle of the node intersected,
pixelwise, with the raw rect field of every ancestor (the full rectangle
including the border, expressed in the coordinate space of that ancestor's
own parent, not in screen coordinates and not reduced to the client area). -/
theorem c7_clipRect_raw_ancestors (root : Gadget) (path : List Nat) :
    ∀ p, (clipRectAt root path).memPt p ↔
      (absRectAt root 0 0 path).memPt p ∧
      ∀ a ∈ ancRectsAt root path, a.memPt p := by
  intro p
  exact clipFold_mem (ancRectsAt root path) (absRectAt root 0 0 path) p

/-- C6 counterexample: the hidden higher sibling does reduce the visible
regions: the pixel (6,6) lies in the rectangle of the gadget but in none of
the rectangles returned by getVisibleRects, contradicting the claim that a
sibling with visible flag false does not reduce the returned regions. -/
theorem c6_counterexample :
    (absRectAt c6Tree 0 0 [0]).memPt (6, 6) ∧
    ¬ memUnion (6, 6) (getVisibleRects c6Tree [0]) := by
  decide

/-- C6 (amended): getVisibleRects subtracts, at every ancestor level, the
absolute rectangles of exactly the siblings that appear after the gadget of
that level in the child list of its parent, whether those siblings are
visible or hidden: a pixel is in the union of the returned rectangles iff it
is in the absolute rectangle of the node and in no such later sibling
rectangle. -/
theorem c6_getVisibleRects_subtracts_later_siblings (root : Gadget)
    (path : List Nat)
    (habs : (absRectAt root 0 0 path).hasDimensions = true)
    (hocc : ∀ o ∈ occludersAt root 0 0 path, o.hasDimensions = true) :
    ∀ p, memUnion p (getVisibleRects root path) ↔
      ((absRectAt root 0 0 path).memPt p ∧
       ∀ o ∈ occludersAt root 0 0 path, ¬ o.memPt p) := by
  intro p
  rw [getVisibleRects,
    damageFold_union (occludersAt root 0 0 path) hocc
      [absRectAt root 0 0 path] (by simpa using habs) p,
    memUnion_singleton]
  constructor
  · rintro ⟨h1, h2⟩
    exact ⟨h1, fun o ho hp => h2 ⟨o, ho, hp⟩⟩
  · rintro ⟨h1, h2⟩
    exact ⟨h1, fun ⟨o, ho, hp⟩ => h2 o ho hp⟩

/-- Witness for C6 on the counterexample tree: the pixel characterization
holds for the gadget at index 0 of c6Tree. -/
theorem c6_witness :
    (absRectAt c6Tree 0 0 [0]).hasDimensions = true ∧
    (∀ o ∈ occludersAt c6Tree 0 0 [0], o.hasDimensions = true) ∧
    ∀ p, memUnion p (getVisibleRects c6Tree [0]) ↔
      ((absRectAt c6Tree 0 0 [0]).memPt p ∧
       ∀ o ∈ occludersAt c6Tree 0 0 [0], ¬ o.memPt p) :=
  ⟨by decide, by decide,
   c6_getVisibleRects_subtracts_later_siblings c6Tree [0]
     (by decide) (by decide)⟩


theorem drawLoop_fst (cctx : Ctx) (path : List Nat) (kids : List Gadget)
    (gadgetRect : Rect) :
    ∀ (unproc acc : List Rect),
      (drawLoop cctx path kids gadgetRect acc unproc).1 =
        removeOverlappedAux gadgetRect acc unproc := by
  intro unproc
  induction unproc with
  | nil => intro acc; simp [drawLoop, removeOverlappedAux]
  | cons d rest ih =>
    intro acc
    rcases hsp : gadgetRect.splitIntersection d with _ | ⟨inter, rems⟩
    · simp [drawLoop, removeOverlappedAux, hsp, ih]
    · simp [drawLoop, removeOverlappedAux, hsp, ih]

theorem drawRects_fst_visible (ctx : Ctx) (path : List Nat) (g : Gadget)
    (damaged : List Rect) (hvis : isVisibleCtx ctx g = true) :
    (drawRects ctx path g damaged).1 =
      removeOverlapped (clipRect ctx g) damaged := by
  cases g with
  | node r v b kids =>
    rw [drawRects]
    rw [if_neg (by simp [hvis])]
    by_cases hemp : damaged.isEmpty
    · rw [if_pos hemp]
      rw [List.isEmpty_iff] at hemp
      subst hemp
      simp [removeOverlapped, removeOverlappedAux]
    · rw [if_neg hemp]
      rw [drawLoop_fst]
      rfl

theorem drawRects_fst_invisible (ctx : Ctx) (path : List Nat) (g : Gadget)
    (damaged : List Rect) (hvis : isVisibleCtx ctx g = false) :
    (drawRects ctx path g damaged).1 = damaged := by
  cases g with
  | node r v b kids =>
    rw [drawRects]
    rw [if_pos (by simp [hvis])]

theorem drawRects_paints_invisible (ctx : Ctx) (path : List Nat) (g : Gadget)
    (damaged : List Rect) (hvis : isVisibleCtx ctx g = false) :
    (drawRects ctx path g damaged).2 = [] := by
  cases g with
  | node r v b kids =>
    rw [drawRects]
    rw [if_pos (by simp [hvis])]

theorem drawLoop_paints_cases (cctx : Ctx) (path : List Nat)
    (kids : List Gadget) (base : Rect)
    (hkids : ∀ sub : List Rect, ∀ pr ∈ (drawKids cctx path 0 kids sub).2,
      ∃ j c suffix, kids.get? j = some c ∧
        pr.1 = path ++ (0 + j) :: suffix ∧ visibleChainB c suffix = true) :
    ∀ (unproc acc : List Rect),
      ∀ pr ∈ (drawLoop cctx path kids base acc unproc).2,
        pr.1 = path ∨
        ∃ j c suffix, kids.get? j = some c ∧
          pr.1 = path ++ j :: suffix ∧ visibleChainB c suffix = true := by
  intro unproc
  induction unproc with
  | nil => intro acc pr hpr; simp [drawLoop] at hpr
  | cons d rest ih =>
    intro acc pr hpr
    rcases hsp : base.splitIntersection d with _ | ⟨inter, rems⟩
    · rw [drawLoop] at hpr
      simp only [hsp] at hpr
      exact ih _ pr hpr
    · rw [drawLoop] at hpr
      simp only [hsp] at hpr
      try dsimp only at hpr
      rw [List.mem_append, List.mem_append] at hpr
      rcases hpr with (hk | hm) | hres
      · obtain ⟨j, c, suffix, hget, hpath, hchain⟩ := hkids [inter] pr hk
        exact Or.inr ⟨j, c, suffix, hget, by simpa using hpath, hchain⟩
      · obtain ⟨lr, _, heq⟩ := List.mem_map.mp hm
        exact Or.inl (by rw [← heq])
      · exact ih _ pr hres

theorem drawPaints_chain :
    ∀ n : Nat,
      (∀ (cctx : Ctx) (path : List Nat) (i : Nat) (kids : List Gadget)
          (sub : List Rect), sizeOf kids ≤ n →
        ∀ pr ∈ (drawKids cctx path i kids sub).2,
          ∃ j c suffix, kids.get? j = some c ∧
            pr.1 = path ++ (i + j) :: suffix ∧
            visibleChainB c suffix = true) ∧
      (∀ (ctx : Ctx) (path : List Nat) (g : Gadget) (damaged : List Rect),
          sizeOf g ≤ n →
        ∀ pr ∈ (drawRects ctx path g damaged).2,
          ∃ suffix, pr.1 = path ++ suffix ∧ visibleChainB g suffix = true) := by
  intro n
  induction n using Nat.strong_induction_on with
  | _ n ih =>
    constructor
    · intro cctx path i kids sub hsz pr hpr
      match kids, hsz with
      | [], _ => simp [drawKids] at hpr
      | k :: ks, hsz =>
        have hks : sizeOf ks < n := by
          have : sizeOf ks < sizeOf (k :: ks) := by simp; try omega
          omega
        have hk : sizeOf k < n := by
          have : sizeOf k < sizeOf (k :: ks) := by simp; try omega
          omega
        rw [drawKids] at hpr
        dsimp only at hpr
        rw [List.mem_append] at hpr
        rcases hpr with h1 | h2
        · obtain ⟨j, c, suffix, hget, hpath, hchain⟩ :=
            (ih (sizeOf ks) hks).1 cctx path (i + 1) ks sub (le_refl _) pr h1
          refine ⟨j + 1, c, suffix, by simpa using hget, ?_, hchain⟩
          rw [hpath]
          congr 2
          omega
        · obtain ⟨suffix, hpath, hchain⟩ :=
            (ih (sizeOf k) hk).2 cctx (path ++ [i]) k _ (le_refl _) pr h2
          refine ⟨0, k, suffix, rfl, ?_, hchain⟩
          rw [hpath, List.append_assoc, List.singleton_append, Nat.add_zero]
    · intro ctx path g damaged hsz pr hpr
      match g, hsz with
      | Gadget.node r v b kids, hsz =>
        by_cases hvis : isVisibleCtx ctx (Gadget.node r v b kids) = true
        · have hv : v = true := by
            have := hvis
            rw [isVisibleCtx] at this
            simp [Gadget.visible] at this
            exact this.2
          by_cases hemp : damaged.isEmpty
          · rw [drawRects, if_neg (by simp [hvis]), if_pos hemp] at hpr
            simp at hpr
          · rw [drawRects, if_neg (by simp [hvis]), if_neg hemp] at hpr
            have hkids : sizeOf kids < n := by
              have : sizeOf kids < sizeOf (Gadget.node r v b kids) := by
                simp; try omega
              omega
            have hcases := drawLoop_paints_cases
              (childCtx ctx (Gadget.node r v b kids)) path kids
              (clipRect ctx (Gadget.node r v b kids))
              (fun sub pr hpr =>
                (ih (sizeOf kids) hkids).1 _ path 0 kids sub (le_refl _) pr hpr)
              damaged [] pr hpr
            rcases hcases with h1 | ⟨j, c, suffix, hget, hpath, hchain⟩
            · refine ⟨[], by simpa using h1, ?_⟩
              simp [visibleChainB, Gadget.visible, hv]
            · refine ⟨j :: suffix, hpath, ?_⟩
              rw [visibleChainB]
              simp only [Gadget.children, Gadget.visible, hget, hv, hchain,
                Bool.true_and]
        · rw [drawRects_paints_invisible ctx path _ damaged
            (Bool.eq_false_iff.mpr hvis)] at hpr
          exact absurd hpr (List.not_mem_nil pr)

theorem setKids_eq_map :
    ∀ kids : List Gadget,
      setAllVisibleTrueKids kids = kids.map setAllVisibleTrue := by
  intro kids
  induction kids with
  | nil => rw [setAllVisibleTrueKids]; rfl
  | cons k ks ih => rw [setAllVisibleTrueKids, ih]; rfl

theorem set_rect (g : Gadget) : (setAllVisibleTrue g).rect = g.rect := by
  cases g with
  | node r v b kids => rw [setAllVisibleTrue]; rfl

theorem set_children (g : Gadget) :
    (setAllVisibleTrue g).children = g.children.map setAllVisibleTrue := by
  cases g with
  | node r v b kids =>
    rw [setAllVisibleTrue]
    simp [Gadget.children, setKids_eq_map]

theorem absRectAt_set :
    ∀ (path : List Nat) (g : Gadget) (gx gy : Int),
      absRectAt (setAllVisibleTrue g) gx gy path = absRectAt g gx gy path := by
  intro path
  induction path with
  | nil => intro g gx gy; simp [absRectAt, set_rect]
  | cons i rest ih =>
    intro g gx gy
    simp only [absRectAt, set_children, List.get?_map, set_rect]
    cases hc : g.children.get? i with
    | none => rfl
    | some c => simp [ih c]

theorem occludersAt_set :
    ∀ (path : List Nat) (g : Gadget) (gx gy : Int),
      occludersAt (setAllVisibleTrue g) gx gy path =
        occludersAt g gx gy path := by
  intro path
  induction path with
  | nil => intro g gx gy; simp [occludersAt]
  | cons i rest ih =>
    intro g gx gy
    simp only [occludersAt, set_children, List.get?_map, set_rect]
    cases hc : g.children.get? i with
    | none => rfl
    | some c =>
      simp only [Option.map_some']
      show occludersAt (setAllVisibleTrue c) (gx + g.rect.x) (gy + g.rect.y)
          rest ++ _ = _
      rw [ih c]
      congr 1
      rw [← List.map_drop, List.map_map]
      congr 1
      funext s
      simp [set_rect]

theorem getVisibleRects_set (root : Gadget) (path : List Nat) :
    getVisibleRects (setAllVisibleTrue root) path =
      getVisibleRects root path := by
  rw [getVisibleRects, getVisibleRects, absRectAt_set, occludersAt_set]

/-- C9 counterexample: a gadget whose visible flag is false still returns
its full rectangle from getVisibleRects rather than the empty list, because
getVisibleRects never consults the visible flag. -/
theorem c9_counterexample :
    c9Tree.visible = false ∧ getVisibleRects c9Tree [] ≠ [] := by
  decide

/-- C9 (amended): the redraw dispatch never invokes the draw method of a
node whose visible flag is false or that has a hidden ancestor; however,
getVisibleRects ignores visibility entirely, returning exactly the same
regions as when every node of the tree is visible, rather than the empty
list. -/
theorem c9_hidden_no_paint (root : Gadget) (path : List Nat)
    (damaged : List Rect) :
    (visibleChainB root path = false →
      ∀ pr ∈ (drawRectsTop root damaged).2, pr.1 ≠ path) ∧
    getVisibleRects (setAllVisibleTrue root) path =
      getVisibleRects root path := by
  constructor
  · intro hvis pr hpr heq
    obtain ⟨suffix, hpath, hchain⟩ :=
      (drawPaints_chain (sizeOf root)).2 rootCtx [] root damaged
        (le_refl _) pr hpr
    rw [heq] at hpath
    rw [List.nil_append] at hpath
    rw [hpath] at hvis
    rw [hchain] at hvis
    exact absurd hvis (by simp)
  · exact getVisibleRects_set root path

/-- Witness for C9: in a tree with a visible root and a hidden child, the
redraw dispatch of damage covering the whole root issues no draw call for
the hidden child, and getVisibleRects of the hidden child is unchanged by
making every node visible. -/
theorem c9_witness :
    visibleChainB c9WitnessTree [0] = false ∧
    (∀ pr ∈ (drawRectsTop c9WitnessTree [Rect.mk 0 0 30 30]).2,
      pr.1 ≠ [0]) ∧
    getVisibleRects (setAllVisibleTrue c9WitnessTree) [0] =
      getVisibleRects c9WitnessTree [0] :=
  ⟨by decide,
   (c9_hidden_no_paint c9WitnessTree [0] [Rect.mk 0 0 30 30]).1 (by decide),
   (c9_hidden_no_paint c9WitnessTree [0] [Rect.mk 0 0 30 30]).2⟩

theorem countP_PD (p : Int × Int) :
    ∀ (l : List Rect), PairwiseDisj l →
      l.countP (fun r => r.memPtB p) = if memUnion p l then 1 else 0 := by
  intro l
  induction l with
  | nil => intro _; simp [memUnion_nil]
  | cons r rest ih =>
    intro hpd
    obtain ⟨hdisj, hrest⟩ := List.pairwise_cons.mp hpd
    rw [List.countP_cons, ih hrest]
    by_cases hr : r.memPt p
    · have hnone : ¬ memUnion p rest := by
        rintro ⟨e, he, hpe⟩
        exact hdisj e he p ⟨hr, hpe⟩
      simp [hr, hnone, memUnion_cons, Rect.memPtB]
    · by_cases hm : memUnion p rest <;>
        simp [hr, hm, memUnion_cons, Rect.memPtB]

theorem paintCount_append (p : Int × Int)
    (l1 l2 : List (List Nat × Rect)) :
    paintCount p (l1 ++ l2) = paintCount p l1 + paintCount p l2 := by
  simp [paintCount, List.countP_append]

theorem paintCount_map (p : Int × Int) (path : List Nat) (l : List Rect) :
    paintCount p (l.map (fun lr => (path, lr))) =
      l.countP (fun r => r.memPtB p) := by
  rw [paintCount, List.countP_map]
  rfl

theorem paintCount_pos_mem {p : Int × Int} {paints : List (List Nat × Rect)}
    {pr : List Nat × Rect} (hpr : pr ∈ paints) (hp : pr.2.memPt p) :
    0 < paintCount p paints := by
  rw [paintCount, List.countP_pos]
  exact ⟨pr, hpr, by simpa [Rect.memPtB] using hp⟩

theorem coveredKids_nil (cctx : Ctx) (p : Int × Int) :
    ¬ coveredKids cctx [] p := by
  simp [coveredKids]

theorem coveredKids_cons (cctx : Ctx) (k : Gadget) (ks : List Gadget)
    (p : Int × Int) :
    coveredKids cctx (k :: ks) p ↔
      (clipRect cctx k).memPt p ∨ coveredKids cctx ks p := by
  simp [coveredKids]

theorem allVisibleB_parts {g : Gadget} (h : allVisibleB g = true) :
    g.visible = true ∧ allVisibleKidsB g.children = true := by
  cases g with
  | node r v b kids =>
    rw [allVisibleB] at h
    rw [Bool.and_eq_true] at h
    exact ⟨h.1, h.2⟩

theorem allVisibleKidsB_parts {k : Gadget} {ks : List Gadget}
    (h : allVisibleKidsB (k :: ks) = true) :
    allVisibleB k = true ∧ allVisibleKidsB ks = true := by
  rw [allVisibleKidsB] at h
  rw [Bool.and_eq_true] at h
  exact h

theorem clipsPosB_parts {ctx : Ctx} {g : Gadget} (h : clipsPosB ctx g = true) :
    (clipRect ctx g).hasDimensions = true ∧
    clipsPosKidsB (childCtx ctx g) g.children = true := by
  cases g with
  | node r v b kids =>
    rw [clipsPosB] at h
    rw [Bool.and_eq_true] at h
    exact h

theorem clipsPosKidsB_parts {cctx : Ctx} {k : Gadget} {ks : List Gadget}
    (h : clipsPosKidsB cctx (k :: ks) = true) :
    clipsPosB cctx k = true ∧ clipsPosKidsB cctx ks = true := by
  rw [clipsPosKidsB] at h
  rw [Bool.and_eq_true] at h
  exact h

theorem ownerKids_isSome_iff (cctx : Ctx) (p : Int × Int) :
    ∀ (kids : List Gadget) (path : List Nat) (i : Nat),
      allVisibleKidsB kids = true → cctx.ancVisible = true →
      ((ownerKids cctx path i kids p).isSome = true ↔
        coveredKids cctx kids p) := by
  intro kids
  induction kids with
  | nil =>
    intro path i _ _
    rw [ownerKids]
    simp [coveredKids_nil]
  | cons k ks ih =>
    intro path i hv ha
    obtain ⟨hk, hks⟩ := allVisibleKidsB_parts hv
    rw [ownerKids]
    rw [coveredKids_cons]
    rcases hop : ownerKids cctx path (i + 1) ks p with _ | res
    · have hcov : ¬ coveredKids cctx ks p := by
        rw [← ih path (i + 1) hks ha, hop]
        simp
      have hkv : isVisibleCtx cctx k = true := by
        rw [isVisibleCtx, ha, (allVisibleB_parts hk).1]
        rfl
      rw [hkv]
      by_cases hmem : (clipRect cctx k).memPt p
      · simp [Rect.memPtB, hmem, hcov]
      · simp [Rect.memPtB, hmem, hcov]
    · have hcov : coveredKids cctx ks p := by
        rw [← ih path (i + 1) hks ha, hop]
        rfl
      simp [hcov]

theorem ownerKids_eq_none {cctx : Ctx} {p : Int × Int} {kids : List Gadget}
    {path : List Nat} {i : Nat}
    (hv : allVisibleKidsB kids = true) (ha : cctx.ancVisible = true)
    (hcov : ¬ coveredKids cctx kids p) :
    ownerKids cctx path i kids p = none := by
  have := ownerKids_isSome_iff cctx p kids path i hv ha
  rcases hop : ownerKids cctx path i kids p with _ | res
  · rfl
  · rw [hop] at this
    simp at this
    exact absurd this hcov

theorem ownerPath_eq_getD (ctx : Ctx) (path : List Nat) (g : Gadget)
    (p : Int × Int) :
    ownerPath ctx path g p =
      (ownerKids (childCtx ctx g) path 0 g.children p).getD path := by
  cases g with
  | node r v b kids =>
    rw [ownerPath]
    rcases hop : ownerKids (childCtx ctx (Gadget.node r v b kids))
        path 0 kids p with _ | res
    all_goals simp [Gadget.children, hop]

theorem drawKids_fst_spec (cctx : Ctx) (path : List Nat) :
    ∀ (kids : List Gadget) (i : Nat) (sub : List Rect),
      allVisibleKidsB kids = true → cctx.ancVisible = true →
      clipsPosKidsB cctx kids = true →
      (∀ e ∈ sub, e.hasDimensions = true) → PairwiseDisj sub →
      (∀ e ∈ (drawKids cctx path i kids sub).1, e.hasDimensions = true) ∧
      PairwiseDisj (drawKids cctx path i kids sub).1 ∧
      (∀ p, memUnion p (drawKids cctx path i kids sub).1 ↔
        (memUnion p sub ∧ ¬ coveredKids cctx kids p)) := by
  intro kids
  induction kids with
  | nil =>
    intro i sub _ _ _ hpos hpd
    rw [drawKids]
    exact ⟨hpos, hpd, fun p => by simp [coveredKids_nil]⟩
  | cons k ks ih =>
    intro i sub hv ha hc hpos hpd
    obtain ⟨hk, hks⟩ := allVisibleKidsB_parts hv
    obtain ⟨hck, hcks⟩ := clipsPosKidsB_parts hc
    obtain ⟨h1pos, h1pd, h1un⟩ := ih (i + 1) sub hks ha hcks hpos hpd
    have hkvis : isVisibleCtx cctx k = true := by
      rw [isVisibleCtx, ha, (allVisibleB_parts hk).1]
      rfl
    have hclip : (clipRect cctx k).hasDimensions = true :=
      (clipsPosB_parts hck).1
    rw [drawKids]
    dsimp only
    rw [drawRects_fst_visible cctx (path ++ [i]) k _ hkvis]
    refine ⟨removeOverlapped_pos _ _ hclip h1pos,
      removeOverlapped_pairwise _ _ hclip h1pos h1pd, fun p => ?_⟩
    rw [removeOverlapped_union _ _ hclip h1pos p, h1un p, coveredKids_cons]
    constructor
    · rintro ⟨⟨hs, hcov⟩, hclipk⟩
      exact ⟨hs, fun hc2 => hc2.elim hclipk hcov⟩
    · rintro ⟨hs, hcov⟩
      exact ⟨⟨hs, fun hc2 => hcov (Or.inr hc2)⟩, fun hc2 => hcov (Or.inl hc2)⟩

theorem drawLoop_paints_spec (cctx : Ctx) (path : List Nat)
    (kids : List Gadget) (base : Rect) (hbase : base.hasDimensions = true)
    (hv : allVisibleKidsB kids = true) (ha : cctx.ancVisible = true)
    (hc : clipsPosKidsB cctx kids = true)
    (hK45 : ∀ sub : List Rect, (∀ e ∈ sub, e.hasDimensions = true) →
      PairwiseDisj sub →
      (∀ p, paintCount p (drawKids cctx path 0 kids sub).2 =
        if memUnion p sub ∧ coveredKids cctx kids p then 1 else 0) ∧
      (∀ pr ∈ (drawKids cctx path 0 kids sub).2, ∀ p, pr.2.memPt p →
        ownerKids cctx path 0 kids p = some pr.1)) :
    ∀ (unproc acc : List Rect), (∀ e ∈ unproc, e.hasDimensions = true) →
      PairwiseDisj unproc →
      (∀ p, paintCount p (drawLoop cctx path kids base acc unproc).2 =
        if memUnion p unproc ∧ base.memPt p then 1 else 0) ∧
      (∀ pr ∈ (drawLoop cctx path kids base acc unproc).2, ∀ p,
        pr.2.memPt p → pr.1 = (ownerKids cctx path 0 kids p).getD path) := by
  intro unproc
  induction unproc with
  | nil =>
    intro acc _ _
    rw [drawLoop]
    constructor
    · intro p
      simp [paintCount, memUnion_nil]
    · intro pr hpr
      simp at hpr
  | cons d rest ih =>
    intro acc hpos hpd
    have hd : d.hasDimensions = true := hpos d (by simp)
    have hrest : ∀ e ∈ rest, e.hasDimensions = true :=
      fun e he => hpos e (by simp [he])
    obtain ⟨hddisj, hpdrest⟩ := List.pairwise_cons.mp hpd
    rcases hsp : base.splitIntersection d with _ | ⟨inter, rems⟩
    · have hdisj := split_none_disj hbase hd hsp
      obtain ⟨ihc, iho⟩ := ih (acc ++ [d]) hrest hpdrest
      constructor
      · intro p
        rw [drawLoop]
        simp only [hsp]
        rw [ihc p]
        simp only [memUnion_cons]
        have hnd : d.memPt p → base.memPt p → False :=
          fun a bb => hdisj p ⟨bb, a⟩
        by_cases h1 : base.memPt p <;> by_cases h2 : d.memPt p <;>
          by_cases h4 : memUnion p rest
        all_goals (try (exact (hnd h2 h1).elim))
        all_goals simp [h1, h2, h4]
      · intro pr hpr p hp
        rw [drawLoop] at hpr
        simp only [hsp] at hpr
        exact iho pr hpr p hp
    · obtain ⟨ihc, iho⟩ := ih (rems.reverse ++ acc) hrest hpdrest
      have hinter := split_inter_mem hsp
      have hipos : inter.hasDimensions = true := (split_pos hbase hd hsp).1
      have hip : ∀ e ∈ [inter], e.hasDimensions = true := by simp [hipos]
      obtain ⟨hK4, hK5⟩ := hK45 [inter] hip (List.pairwise_singleton _ _)
      obtain ⟨hLpos, hLpd, hLun⟩ := drawKids_fst_spec cctx path kids 0 [inter]
        hv ha hc hip (List.pairwise_singleton _ _)
      constructor
      · intro p
        rw [drawLoop]
        simp only [hsp]
        try dsimp only
        rw [paintCount_append, paintCount_append, paintCount_map]
        rw [hK4 p, ihc p, countP_PD p _ hLpd]
        have e2 : memUnion p [inter] ↔ (base.memPt p ∧ d.memPt p) := by
          rw [memUnion_singleton, hinter p]
        have e3 : memUnion p (drawKids cctx path 0 kids [inter]).1 ↔
            ((base.memPt p ∧ d.memPt p) ∧ ¬ coveredKids cctx kids p) := by
          rw [hLun p, e2]
        have hdr : d.memPt p → memUnion p rest → False :=
          fun hq hx => hx.elim (fun e hx2 => hddisj e hx2.1 p ⟨hq, hx2.2⟩)
        simp only [memUnion_cons]
        by_cases h1 : base.memPt p <;> by_cases h2 : d.memPt p <;>
          by_cases h3 : coveredKids cctx kids p <;>
          by_cases h4 : memUnion p rest
        all_goals (try (exact (hdr h2 h4).elim))
        all_goals simp [e2, e3, hinter p, memUnion_nil, h1, h2, h3, h4]
      · intro pr hpr p hp
        rw [drawLoop] at hpr
        simp only [hsp] at hpr
        try dsimp only at hpr
        rw [List.mem_append, List.mem_append] at hpr
        rcases hpr with (hk | hm) | hres
        · rw [hK5 pr hk p hp]
          rfl
        · obtain ⟨lr, hlr, heq⟩ := List.mem_map.mp hm
          have hplr : lr.memPt p := by
            rw [← heq] at hp
            exact hp
          have hcov : ¬ coveredKids cctx kids p := by
            have := (hLun p).mp ⟨lr, hlr, hplr⟩
            exact this.2
          rw [ownerKids_eq_none hv ha hcov]
          rw [← heq]
          rfl
        · exact iho pr hres p hp

theorem drawPaint_main :
    ∀ n : Nat,
      (∀ (cctx : Ctx) (path : List Nat) (i : Nat) (kids : List Gadget)
          (sub : List Rect), sizeOf kids ≤ n →
        allVisibleKidsB kids = true → cctx.ancVisible = true →
        clipsPosKidsB cctx kids = true →
        (∀ e ∈ sub, e.hasDimensions = true) → PairwiseDisj sub →
        (∀ p, paintCount p (drawKids cctx path i kids sub).2 =
          if memUnion p sub ∧ coveredKids cctx kids p then 1 else 0) ∧
        (∀ pr ∈ (drawKids cctx path i kids sub).2, ∀ p, pr.2.memPt p →
          ownerKids cctx path i kids p = some pr.1)) ∧
      (∀ (ctx : Ctx) (path : List Nat) (g : Gadget) (damaged : List Rect),
          sizeOf g ≤ n →
        allVisibleB g = true → ctx.ancVisible = true →
        clipsPosB ctx g = true →
        (∀ e ∈ damaged, e.hasDimensions = true) → PairwiseDisj damaged →
        (∀ p, paintCount p (drawRects ctx path g damaged).2 =
          if memUnion p damaged ∧ (clipRect ctx g).memPt p then 1 else 0) ∧
        (∀ pr ∈ (drawRects ctx path g damaged).2, ∀ p, pr.2.memPt p →
          pr.1 = ownerPath ctx path g p)) := by
  intro n
  induction n using Nat.strong_induction_on with
  | _ n ih =>
    constructor
    · intro cctx path i kids sub hsz hv ha hc hpos hpd
      match kids, hsz, hv, hc with
      | [], _, _, _ =>
        constructor
        · intro p
          rw [drawKids]
          simp [paintCount, coveredKids_nil]
        · intro pr hpr
          rw [drawKids] at hpr
          simp at hpr
      | k :: ks, hsz, hv, hc =>
        have hks : sizeOf ks < n := by
          have : sizeOf ks < sizeOf (k :: ks) := by simp; try omega
          omega
        have hk : sizeOf k < n := by
          have : sizeOf k < sizeOf (k :: ks) := by simp; try omega
          omega
        obtain ⟨hvk, hvks⟩ := allVisibleKidsB_parts hv
        obtain ⟨hck, hcks⟩ := clipsPosKidsB_parts hc
        obtain ⟨K4ks, K5ks⟩ := (ih (sizeOf ks) hks).1 cctx path (i + 1) ks
          sub (le_refl _) hvks ha hcks hpos hpd
        obtain ⟨P1, P2, P3⟩ := drawKids_fst_spec cctx path ks (i + 1) sub
          hvks ha hcks hpos hpd
        obtain ⟨R4k, R5k⟩ := (ih (sizeOf k) hk).2 cctx (path ++ [i]) k
          ((drawKids cctx path (i + 1) ks sub).1) (le_refl _) hvk ha hck P1 P2
        have hkvis : isVisibleCtx cctx k = true := by
          rw [isVisibleCtx, ha, (allVisibleB_parts hvk).1]
          rfl
        constructor
        · intro p
          rw [drawKids]
          dsimp only
          rw [paintCount_append, K4ks p, R4k p]
          have e1 := P3 p
          by_cases hA : memUnion p sub <;>
            by_cases hB : coveredKids cctx ks p <;>
            by_cases hC : (clipRect cctx k).memPt p
          all_goals simp [e1, coveredKids_cons, hA, hB, hC]
        · intro pr hpr p hp
          rw [drawKids] at hpr
          dsimp only at hpr
          rw [List.mem_append] at hpr
          rcases hpr with hL | hR
          · have hsome := K5ks pr hL p hp
            rw [ownerKids, hsome]
          · have hown := R5k pr hR p hp
            have hcnt := paintCount_pos_mem hR hp
            rw [R4k p] at hcnt
            have hcond : memUnion p (drawKids cctx path (i + 1) ks sub).1 ∧
                (clipRect cctx k).memPt p := by
              by_contra hcon
              rw [if_neg hcon] at hcnt
              exact absurd hcnt (by simp)
            have hnotcov : ¬ coveredKids cctx ks p := ((P3 p).mp hcond.1).2
            rw [ownerKids, ownerKids_eq_none hvks ha hnotcov]
            have hifc : (isVisibleCtx cctx k &&
                (clipRect cctx k).memPtB p) = true := by
              rw [hkvis]
              simp [Rect.memPtB, hcond.2]
            simp only [hifc, if_pos, Bool.and_eq_true, Rect.memPtB,
              decide_eq_true_eq]
            rw [if_pos ⟨hkvis, hcond.2⟩, hown]
    · intro ctx path g damaged hsz hv ha hc hpos hpd
      match g, hsz, hv, hc with
      | Gadget.node r v b kids, hsz, hv, hc =>
        have hvparts := allVisibleB_parts hv
        have hvv : v = true := by
          simpa [Gadget.visible] using hvparts.1
        have hvis : isVisibleCtx ctx (Gadget.node r v b kids) = true := by
          rw [isVisibleCtx, ha]
          simp [Gadget.visible, hvv]
        obtain ⟨hclip, hcKids⟩ := clipsPosB_parts hc
        have hkidslt : sizeOf kids < n := by
          have : sizeOf kids < sizeOf (Gadget.node r v b kids) := by
            simp; try omega
          omega
        have hcctxanc : (childCtx ctx (Gadget.node r v b kids)).ancVisible
            = true := by
          rw [childCtx]
          simp [Gadget.visible, ha, hvv]
        have hloop := drawLoop_paints_spec
          (childCtx ctx (Gadget.node r v b kids)) path kids
          (clipRect ctx (Gadget.node r v b kids)) hclip
          (by simpa [Gadget.children] using hvparts.2) hcctxanc
          (by simpa [Gadget.children] using hcKids)
          (fun sub hpos2 hpd2 => (ih (sizeOf kids) hkidslt).1
            (childCtx ctx (Gadget.node r v b kids)) path 0 kids sub
            (le_refl _) (by simpa [Gadget.children] using hvparts.2)
            hcctxanc (by simpa [Gadget.children] using hcKids) hpos2 hpd2)
        by_cases hemp : damaged.isEmpty
        · rw [List.isEmpty_iff] at hemp
          subst hemp
          constructor
          · intro p
            rw [drawRects, if_neg (by simp [hvis]), if_pos (by simp)]
            simp [paintCount, memUnion_nil]
          · intro pr hpr
            rw [drawRects, if_neg (by simp [hvis]), if_pos (by simp)] at hpr
            simp at hpr
        · constructor
          · intro p
            rw [drawRects, if_neg (by simp [hvis]), if_neg hemp]
            exact (hloop damaged [] hpos hpd).1 p
          · intro pr hpr p hp
            rw [drawRects, if_neg (by simp [hvis]), if_neg hemp] at hpr
            have hres := (hloop damaged [] hpos hpd).2 pr hpr p hp
            rw [ownerPath_eq_getD]
            simpa [Gadget.children] using hres

/-- C1 (amended): for a tree in which every node is visible and every node
has a clipped rectangle of positive dimensions, and for a pairwise disjoint
list of damaged rectangles of positive dimensions, the redraw dispatch
paints each pixel lying both in some damaged rectangle and in the clipped
rectangle of the root exactly once, and paints every other pixel zero
times; the node that paints a pixel is the one reached from the root by
repeatedly descending into the topmost (highest index) child whose clipped
rectangle contains the pixel.  Pixels of a damaged rectangle outside the
clipped rectangle of the root are not painted at all. -/
theorem c1_paint_once (root : Gadget) (damaged : List Rect)
    (hv : allVisibleB root = true)
    (hc : clipsPosB rootCtx root = true)
    (hd : ∀ d ∈ damaged, d.hasDimensions = true)
    (hp : PairwiseDisj damaged) :
    ∀ p : Int × Int,
      paintCount p (drawRectsTop root damaged).2 =
        (if memUnion p damaged ∧ (clipRect rootCtx root).memPt p
          then 1 else 0) ∧
      ∀ pr ∈ (drawRectsTop root damaged).2, pr.2.memPt p →
        pr.1 = ownerPath rootCtx [] root p := by
  intro p
  have hmain := (drawPaint_main (sizeOf root)).2 rootCtx [] root damaged
    (le_refl _) hv rfl hc hd hp
  exact ⟨hmain.1 p, fun pr hpr hp2 => hmain.2 pr hpr p hp2⟩

/-- C1 counterexample: the damaged rectangle (0,0,20,20) extends beyond the
root gadget (0,0,10,10); the pixel (15,5) lies inside the damaged
rectangle yet the dispatch paints it zero times, contradicting the claim
that every pixel inside a damaged rectangle is painted exactly once. -/
theorem c1_counterexample :
    (Rect.mk 0 0 20 20).memPt (15, 5) ∧
    paintCount (15, 5) (drawRectsTop c1Tree [Rect.mk 0 0 20 20]).2 = 0 := by
  constructor
  · decide
  · have h : (drawRectsTop c1Tree [Rect.mk 0 0 20 20]).2 =
        [([], Rect.mk 0 0 10 10)] := by
      simp [drawRectsTop, drawRects, drawLoop, drawKids, clipRect, absRect,
        isVisibleCtx, rootCtx, childCtx, c1Tree, Gadget.children,
        Gadget.visible, Gadget.rect, Rect.splitIntersection, Rect.intersects,
        Rect.carveLeft, Rect.carveRight, Rect.carveTop, Rect.carveBottom]
    rw [h]
    decide

/-- Witness for C1 on a two-node tree: damage (0,0,8,8) on a root
(0,0,20,20) with a topmost child (5,5,10,10); the pixel (6,6) lies in the
child, which is the owner the dispatch routes it to. -/
theorem c1_witness :
    allVisibleB c1WitnessTree = true ∧
    clipsPosB rootCtx c1WitnessTree = true ∧
    (∀ d ∈ [Rect.mk 0 0 8 8], d.hasDimensions = true) ∧
    PairwiseDisj [Rect.mk 0 0 8 8] ∧
    (paintCount (6, 6) (drawRectsTop c1WitnessTree [Rect.mk 0 0 8 8]).2 =
      (if memUnion (6, 6) [Rect.mk 0 0 8 8] ∧
          (clipRect rootCtx c1WitnessTree).memPt (6, 6) then 1 else 0) ∧
      ∀ pr ∈ (drawRectsTop c1WitnessTree [Rect.mk 0 0 8 8]).2,
        pr.2.memPt (6, 6) →
        pr.1 = ownerPath rootCtx [] c1WitnessTree (6, 6)) := by
  have hv : allVisibleB c1WitnessTree = true := by
    simp [c1WitnessTree, allVisibleB, allVisibleKidsB]
  have hc : clipsPosB rootCtx c1WitnessTree = true := by
    simp [c1WitnessTree, clipsPosB, clipsPosKidsB, clipRect, absRect,
      childCtx, rootCtx, Gadget.rect, Gadget.children, Rect.clipToIntersect,
      Rect.getIntersect, Rect.getX2, Rect.getY2, Rect.hasDimensions]
  exact ⟨hv, hc, by decide, List.pairwise_singleton _ _,
    c1_paint_once c1WitnessTree [Rect.mk 0 0 8 8] hv hc (by decide)
      (List.pairwise_singleton _ _) (6, 6)⟩
